import Mathlib

/-!
# trueclock: bounded-uncertainty clock readings

A verification development for `vendor/github.com/fabianlindfors/trueclock`
(`trueclock.go`, `bounds.go`).

## Modelling conventions

* **float64.**  A finite `float64` is modelled by the rational number it denotes.
  Every arithmetic operation of the source (`+`, `*`, `/`, the `int64 → float64`
  conversion) is the exact rational operation followed by `fl`, IEEE-754 binary64
  rounding to nearest, ties to even, with gradual underflow (53-bit significand,
  least exponent `-1074`).  `math.Abs` and `math.Round` are exact on floats.
  Overflow to `±Inf` and `NaN` are not represented: the exponent range of `fl` is
  unbounded above.  The model and the code agree on a computation as long as every
  rounded result stays within the largest finite float64, `maxFloat64`; statements
  that depend on it carry that condition (`inFloat64Range`,
  `calculateDispersionFinite`).  Sums and products are rounded one operation at a
  time (no fused multiply-add), as the Go compiler does on amd64.
* **int64.**  `time.Duration` and `int64` are integers; the places where the source
  can leave the 64-bit range are written out: `wrap64` for negation, saturation in
  `Time.Sub`, and `toInt64` for the `float64 → int64` conversion, whose
  out-of-range result is the amd64 one (`-2^63`).
* **time.Time.**  An instant is its wall-clock reading in nanoseconds since the Unix
  epoch; the range of `time.Time` is treated as unbounded.
* **Clock readings.**  `time.Now()` is an input: `calculateDispersion` and
  `boundsFromTracking` each take the instant they read.
* **Pointers and panics.**  `*chrony.Tracking` is `Option Tracking` (`none` is `nil`);
  a function that can panic returns `Option`, with `none` for the panic.
* **The chrony client library** is outside the repository: the result of
  `Client.Communicate` and of `net.Dial` are inputs.
* **Locking.**  Each critical section runs to completion; calls are atomic steps.
-/

namespace Trueclock

/-! ## float64 -/

/-- Two to the power `e`, for an integer exponent. -/
def pow2 (e : ℤ) : ℚ :=
  if 0 ≤ e then ((2 ^ e.toNat : ℕ) : ℚ) else 1 / ((2 ^ (-e).toNat : ℕ) : ℚ)

/-- Binary logarithm by repeated halving, `fuel` halvings at most. -/
def log2Fuel : ℕ → ℕ → ℕ
  | 0, _ => 0
  | fuel + 1, n => if n < 2 then 0 else log2Fuel fuel (n / 2) + 1

/-- Position of the leading bit of `n`: `⌊log₂ n⌋` for `n ≥ 1`. -/
def ilog2 (n : ℕ) : ℕ := log2Fuel n n

/-- The binade of a nonzero rational: the `k` with `2^k ≤ |x| < 2^(k+1)`. -/
def binade (x : ℚ) : ℤ :=
  let k : ℤ := (ilog2 x.num.natAbs : ℤ) - (ilog2 x.den : ℤ)
  if pow2 k ≤ |x| then k else k - 1

/-- Exponent of the unit in the last place of the binary64 format at `x`:
53 significant bits, never below the subnormal exponent `-1074`. -/
def ulpExp (x : ℚ) : ℤ := max (binade x - 52) (-1074)

/-- Nearest integer, ties to the even one. -/
def roundHalfEven (x : ℚ) : ℤ :=
  let f := ⌊x⌋
  let r := x - f
  if r < 1/2 then f else if 1/2 < r then f + 1 else if f % 2 = 0 then f else f + 1

/-- IEEE-754 binary64 rounding, to nearest with ties to even. -/
def fl (x : ℚ) : ℚ :=
  if x = 0 then 0 else (roundHalfEven (x / pow2 (ulpExp x)) : ℚ) * pow2 (ulpExp x)

/-- The rational `x` is a finite binary64 value. -/
def isFloat64 (x : ℚ) : Prop := fl x = x

instance (x : ℚ) : Decidable (isFloat64 x) := by unfold isFloat64; infer_instance

/-- The largest finite float64, `(2^53 - 1) * 2^971`. -/
def maxFloat64 : ℚ := (2 ^ 53 - 1) * 2 ^ 971

/-- The magnitude of `x` does not exceed the largest finite float64: a float64
operation whose rounded result is `x` has not overflowed. -/
def inFloat64Range (x : ℚ) : Prop := |x| ≤ maxFloat64

instance (x : ℚ) : Decidable (inFloat64Range x) := by unfold inFloat64Range; infer_instance

/-- Go `math.Round`: the nearest integer, halfway cases away from zero. -/
def goRound (x : ℚ) : ℚ :=
  if 0 ≤ x then ((⌊x + 1/2⌋ : ℤ) : ℚ) else -((⌊-x + 1/2⌋ : ℤ) : ℚ)

/-! ## int64 -/

/-- Reduction of an integer to the two's-complement 64-bit range. -/
def wrap64 (n : ℤ) : ℤ := (n + 2 ^ 63) % 2 ^ 64 - 2 ^ 63

/-- The integer part of `x`, rounding toward zero. -/
def truncToZero (x : ℚ) : ℤ := if 0 ≤ x then ⌊x⌋ else -⌊-x⌋

/-- Go `int64(x)` for a float64 `x`: truncation toward zero; a value outside the
int64 range converts to `-2^63` (the amd64 result). -/
def toInt64 (x : ℚ) : ℤ :=
  let t := truncToZero x
  if -2 ^ 63 ≤ t ∧ t < 2 ^ 63 then t else -2 ^ 63

/-! ## package time -/

/-- A `time.Time`: wall-clock nanoseconds since the Unix epoch. -/
abbrev Time := ℤ

/-- A `time.Duration`: a signed 64-bit count of nanoseconds. -/
abbrev Duration := ℤ

/-- Go `t.Sub(u)`: the difference, saturated to the `Duration` range. -/
def Time.Sub (t u : Time) : Duration :=
  let d := t - u
  if d < -2 ^ 63 then -2 ^ 63 else if 2 ^ 63 - 1 < d then 2 ^ 63 - 1 else d

/-- Go `t.Add(d)`. -/
def Time.Add (t : Time) (d : Duration) : Time := t + d

/-- Go `d.Seconds()`: `float64(sec) + float64(nsec)/1e9` with `sec = d / Second`
and `nsec = d % Second` (both truncated toward zero). -/
def Duration.Seconds (d : Duration) : ℚ :=
  let sec := d.tdiv 1000000000
  let nsec := d.tmod 1000000000
  fl (fl (sec : ℚ) + fl (fl (nsec : ℚ) / 1000000000))

/-! ## package trueclock -/

/-- The fields of `chrony.Tracking` that the package reads. -/
structure Tracking where
  RefTime : Time
  CurrentCorrection : ℚ
  ResidFreqPPM : ℚ
  SkewPPM : ℚ
  RootDelay : ℚ
  RootDispersion : ℚ
  deriving DecidableEq

/-- Every float field of the record is a finite float64. -/
def Tracking.finite (s : Tracking) : Prop :=
  isFloat64 s.CurrentCorrection ∧ isFloat64 s.ResidFreqPPM ∧ isFloat64 s.SkewPPM ∧
    isFloat64 s.RootDelay ∧ isFloat64 s.RootDispersion

instance (s : Tracking) : Decidable s.finite := by unfold Tracking.finite; infer_instance

/-- Source `bounds.go`: `type Bounds struct`. -/
structure Bounds where
  Earliest : Time
  Latest : Time
  deriving DecidableEq

/-- Width of an interval, `b.Latest.Sub(b.Earliest)` before saturation. -/
def Bounds.width (b : Bounds) : ℤ := b.Latest - b.Earliest

/-- Source `trueclock.go`: `const MaxClockError = 1.0`. -/
def MaxClockError : ℚ := 1

/-- Source `bounds.go`: `roundFloat64ToNanos`. -/
def roundFloat64ToNanos (value : ℚ) : ℚ :=
  fl (goRound (fl (value * 1000000000)) / 1000000000)

/-- Source `bounds.go`, `boundsFromTracking`: the local `errorBound`. -/
def errorBound (tracking : Tracking) : ℚ :=
  roundFloat64ToNanos
    (fl (fl (|tracking.CurrentCorrection| + tracking.RootDispersion) + fl (tracking.RootDelay / 2)))

/-- Source `bounds.go`, `boundsFromTracking`: the local `errorBoundNanos`. -/
def errorBoundNanos (tracking : Tracking) : ℤ :=
  toInt64 (fl (errorBound tracking * 1000000000))

/-- Source `bounds.go`: `boundsFromTracking`; `now` is the value read by `time.Now()`. -/
def boundsFromTracking (tracking : Tracking) (now : Time) : Bounds :=
  { Earliest := Time.Add now (wrap64 (-errorBoundNanos tracking))
    Latest := Time.Add now (errorBoundNanos tracking) }

/-- Source `trueclock.go`, `calculateDispersion`: the local `errorRate`. -/
def errorRate (tracking : Tracking) : ℚ :=
  fl (fl (fl (MaxClockError + tracking.SkewPPM) + tracking.ResidFreqPPM) * fl (1 / 1000000))

/-- Source `trueclock.go`: `calculateDispersion`; `systemTime` is the value read by
`time.Now()`. -/
def calculateDispersion (tracking : Tracking) (systemTime : Time) : ℚ :=
  let elapsed := Duration.Seconds (Time.Sub systemTime tracking.RefTime)
  fl (tracking.RootDispersion + fl (elapsed * errorRate tracking))

/-- No float64 operation of `calculateDispersion` overflows at this snapshot and
clock reading: the three metrics it reads are finite float64 values, and the two
sums and the product of the error rate, the product with the elapsed time and the
final sum all stay within the float64 range.  (The elapsed seconds are below
`2^34` in magnitude and never overflow.) -/
def calculateDispersionFinite (tracking : Tracking) (systemTime : Time) : Prop :=
  (isFloat64 tracking.SkewPPM ∧ inFloat64Range tracking.SkewPPM) ∧
  (isFloat64 tracking.ResidFreqPPM ∧ inFloat64Range tracking.ResidFreqPPM) ∧
  (isFloat64 tracking.RootDispersion ∧ inFloat64Range tracking.RootDispersion) ∧
  inFloat64Range (fl (MaxClockError + tracking.SkewPPM)) ∧
  inFloat64Range (fl (fl (MaxClockError + tracking.SkewPPM) + tracking.ResidFreqPPM)) ∧
  inFloat64Range (errorRate tracking) ∧
  inFloat64Range
    (fl (Duration.Seconds (Time.Sub systemTime tracking.RefTime) * errorRate tracking)) ∧
  inFloat64Range (calculateDispersion tracking systemTime)

instance (tracking : Tracking) (systemTime : Time) :
    Decidable (calculateDispersionFinite tracking systemTime) := by
  unfold calculateDispersionFinite; infer_instance

/-- A Go `error` value. -/
abbrev Error := String

/-- A `net.Conn`, by its handle. -/
abbrev Conn := ℕ

/-- A `chrony.Client`; its sequence counter is internal to the library. -/
structure Client where
  Connection : Conn
  deriving DecidableEq

/-- A decoded `chrony.ResponsePacket`: a `*chrony.ReplyTracking`, or a reply of
another dynamic type. -/
inductive Reply where
  | tracking (t : Tracking)
  | other
  deriving DecidableEq

/-- Source `trueclock.go`: `type TrueClock struct` (the mutex apart). -/
structure TrueClock where
  chronyConn : Conn
  chronyClient : Client
  tracking : Option Tracking
  deriving DecidableEq

/-- Source `trueclock.go`: `pollTracking`, given what `chronyClient.Communicate` returned.
The result is the pair `(*chrony.Tracking, error)`; `none` is the panic of the
type assertion `resp.(*chrony.ReplyTracking)`. -/
def pollTracking (resp : Except Error Reply) : Option (Option Tracking × Option Error) :=
  match resp with
  | .error err => some (none, some err)
  | .ok (.tracking t) => some (some t, none)
  | .ok .other => none

/-- Source `trueclock.go`: `startChronyPoller`, on the number of running poller
goroutines. -/
def startChronyPoller (_c : TrueClock) (goroutines : ℕ) : ℕ := goroutines + 1

/-- One iteration of the loop inside `startChronyPoller` (a tick of the ticker),
given what `Communicate` returned; `none` is a panic in `pollTracking`. -/
def pollerCycle (c : TrueClock) (resp : Except Error Reply) : Option TrueClock :=
  match pollTracking resp with
  | none => none
  | some (tracking, _) => some { c with tracking := tracking }

/-- Source `trueclock.go`: `New`, given what `net.Dial` returned, what `Communicate`
returns for the first request, and the number of running poller goroutines.
The result is the pair `(*TrueClock, error)` with the goroutine count after the
call; `none` is a panic. -/
def New (dial : Except Error Conn) (resp : Except Error Reply) (goroutines : ℕ) :
    Option (Option TrueClock × Option Error × ℕ) :=
  match dial with
  | .error err => some (none, some err, goroutines)
  | .ok chronyConn =>
    let chronyClient : Client := { Connection := chronyConn }
    match pollTracking resp with
    | none => none
    | some (_, some err) => some (none, some err, goroutines)
    | some (tracking, none) =>
      let clock : TrueClock :=
        { chronyConn := chronyConn, chronyClient := chronyClient, tracking := tracking }
      some (some clock, none, startChronyPoller clock goroutines)

/-- Source `trueclock.go`: `(*TrueClock).Now`.  `t₁` is the instant read inside
`calculateDispersion`, `t₂` the one read inside `boundsFromTracking`.  The result
is the returned `Bounds` with the service state after the call; `none` is the
nil-pointer panic of `*c.tracking`. -/
def Now (c : TrueClock) (t₁ t₂ : Time) : Option (Bounds × TrueClock) :=
  match c.tracking with
  | none => none
  | some tracking =>
    let tracking := { tracking with RootDispersion := calculateDispersion tracking t₁ }
    some (boundsFromTracking tracking t₂, c)

/-! ## Sample inputs -/

/-- A reference instant (2023-11-14T22:13:20Z). -/
def T0 : Time := 1700000000000000000

/-- A service holding the snapshot `s`. -/
def clockOf (s : Tracking) : TrueClock :=
  { chronyConn := 0, chronyClient := { Connection := 0 }, tracking := some s }

/-- The snapshot of the end-to-end examples: correction `0.0001`, dispersion
`0.00005`, delay `0.0002` (the float64 nearest to each), both rates `0`. -/
def sExample : Tracking :=
  { RefTime := T0, CurrentCorrection := fl (1 / 10000), ResidFreqPPM := 0, SkewPPM := 0,
    RootDelay := fl (2 / 10000), RootDispersion := fl (5 / 100000) }

/-- All metrics zero. -/
def sZero : Tracking :=
  { RefTime := T0, CurrentCorrection := 0, ResidFreqPPM := 0, SkewPPM := 0,
    RootDelay := 0, RootDispersion := 0 }

/-- Root dispersion `2^-26` s (about 14.9 ns), everything else zero. -/
def sTrunc : Tracking :=
  { RefTime := T0, CurrentCorrection := 0, ResidFreqPPM := 0, SkewPPM := 0,
    RootDelay := 0, RootDispersion := 1 / 2 ^ 26 }

/-- Residual frequency error `-3` ppm, root dispersion `2^-10` s. -/
def sNeg : Tracking :=
  { RefTime := T0, CurrentCorrection := 0, ResidFreqPPM := -3, SkewPPM := 0,
    RootDelay := 0, RootDispersion := 1 / 1024 }

/-- Correction and root dispersion `2^-32` s (about 0.23 ns) each. -/
def sTiny : Tracking :=
  { RefTime := T0, CurrentCorrection := 1 / 2 ^ 32, ResidFreqPPM := 0, SkewPPM := 0,
    RootDelay := 0, RootDispersion := 1 / 2 ^ 32 }

/-- Skew and residual frequency error `2^1023` ppm each (finite float64 values
whose sum overflows), everything else zero. -/
def sBig : Tracking :=
  { RefTime := T0, CurrentCorrection := 0, ResidFreqPPM := 2 ^ 1023, SkewPPM := 2 ^ 1023,
    RootDelay := 0, RootDispersion := 0 }

/-- The service states reachable from a successful `New` by poller cycles. -/
inductive Reachable : TrueClock → Prop where
  | init (dial : Except Error Conn) (resp : Except Error Reply) (g g' : ℕ) (c : TrueClock) :
      New dial resp g = some (some c, none, g') → Reachable c
  | cycle (c c' : TrueClock) (resp : Except Error Reply) :
      Reachable c → pollerCycle c resp = some c' → Reachable c'

/-! # Theorems

## Binary64 rounding -/

/-- The computable `pow2` is the power of two. -/
theorem pow2_eq_zpow (e : ℤ) : pow2 e = (2 : ℚ) ^ e := by
  unfold pow2
  split_ifs with h
  · obtain ⟨n, rfl⟩ := Int.eq_ofNat_of_zero_le h
    simp
  · push_neg at h
    obtain ⟨n, hn⟩ := Int.eq_ofNat_of_zero_le (by omega : 0 ≤ -e)
    have he : e = -(n : ℤ) := by omega
    rw [he]
    simp

theorem pow2_pos (e : ℤ) : 0 < pow2 e := by
  rw [pow2_eq_zpow]; positivity

theorem log2Fuel_spec : ∀ fuel n : ℕ, n ≤ fuel → 1 ≤ n →
    2 ^ log2Fuel fuel n ≤ n ∧ n < 2 ^ (log2Fuel fuel n + 1)
  | 0, n, h, h1 => by omega
  | fuel + 1, n, h, h1 => by
    unfold log2Fuel
    split_ifs with h2
    · constructor <;> simp <;> omega
    · have ih := log2Fuel_spec fuel (n / 2) (by omega) (by omega)
      obtain ⟨ih1, ih2⟩ := ih
      constructor
      · rw [pow_succ]; omega
      · rw [pow_succ]; omega

theorem ilog2_spec (n : ℕ) (h : 1 ≤ n) : 2 ^ ilog2 n ≤ n ∧ n < 2 ^ (ilog2 n + 1) :=
  log2Fuel_spec n n le_rfl h

/-- The binade brackets the magnitude: `2^k ≤ |x| < 2^(k+1)`. -/
theorem binade_spec (x : ℚ) (hx : x ≠ 0) :
    (2 : ℚ) ^ binade x ≤ |x| ∧ |x| < (2 : ℚ) ^ (binade x + 1) := by
  have hp : 1 ≤ x.num.natAbs := by
    have : x.num ≠ 0 := Rat.num_ne_zero.mpr hx
    omega
  have hq : 1 ≤ x.den := x.den_pos
  obtain ⟨p1, p2⟩ := ilog2_spec _ hp
  obtain ⟨q1, q2⟩ := ilog2_spec _ hq
  have habs : |x| = (x.num.natAbs : ℚ) / (x.den : ℚ) := by
    conv_lhs => rw [← Rat.num_div_den x]
    rw [abs_div, Nat.abs_cast]
    congr 1
    rw [Nat.cast_natAbs, Int.cast_abs]
  have hqpos : (0 : ℚ) < x.den := by exact_mod_cast x.den_pos
  set a := ilog2 x.num.natAbs
  set b := ilog2 x.den
  have p1' : (2 : ℚ) ^ (a : ℤ) ≤ (x.num.natAbs : ℚ) := by
    rw [zpow_natCast]; exact_mod_cast p1
  have p2' : (x.num.natAbs : ℚ) < (2 : ℚ) ^ ((a : ℤ) + 1) := by
    rw [show ((a : ℤ) + 1) = ((a + 1 : ℕ) : ℤ) by push_cast; ring, zpow_natCast]; exact_mod_cast p2
  have q1' : (2 : ℚ) ^ (b : ℤ) ≤ (x.den : ℚ) := by
    rw [zpow_natCast]; exact_mod_cast q1
  have q2' : (x.den : ℚ) < (2 : ℚ) ^ ((b : ℤ) + 1) := by
    rw [show ((b : ℤ) + 1) = ((b + 1 : ℕ) : ℤ) by push_cast; ring, zpow_natCast]; exact_mod_cast q2
  have h2 : (0 : ℚ) < 2 := by norm_num
  -- |x| < 2^(a - b + 1)
  have up : |x| < (2 : ℚ) ^ ((a : ℤ) - b + 1) := by
    rw [habs, div_lt_iff₀ hqpos]
    calc (x.num.natAbs : ℚ) < (2 : ℚ) ^ ((a : ℤ) + 1) := p2'
      _ = (2 : ℚ) ^ ((a : ℤ) - b + 1) * (2 : ℚ) ^ (b : ℤ) := by
          rw [← zpow_add₀ (by norm_num : (2 : ℚ) ≠ 0)]; congr 1; ring
      _ ≤ (2 : ℚ) ^ ((a : ℤ) - b + 1) * x.den := by
          apply mul_le_mul_of_nonneg_left q1' (by positivity)
  have lo : (2 : ℚ) ^ ((a : ℤ) - b - 1) ≤ |x| := by
    rw [habs, le_div_iff₀ hqpos]
    calc (2 : ℚ) ^ ((a : ℤ) - b - 1) * x.den
        ≤ (2 : ℚ) ^ ((a : ℤ) - b - 1) * (2 : ℚ) ^ ((b : ℤ) + 1) := by
          apply mul_le_mul_of_nonneg_left q2'.le (by positivity)
      _ = (2 : ℚ) ^ (a : ℤ) := by
          rw [← zpow_add₀ (by norm_num : (2 : ℚ) ≠ 0)]; congr 1; ring
      _ ≤ _ := p1'
  unfold binade
  simp only [pow2_eq_zpow]
  split_ifs with h
  · exact ⟨h, up⟩
  · push_neg at h
    refine ⟨lo, ?_⟩
    rw [show (a : ℤ) - b - 1 + 1 = (a : ℤ) - b by ring]
    exact h


/-- The rounded integer is within one half, and even when exactly one half away. -/
theorem roundHalfEven_char (x : ℚ) :
    |x - roundHalfEven x| < 1/2 ∨ (|x - roundHalfEven x| = 1/2 ∧ roundHalfEven x % 2 = 0) := by
  have h0 : (0 : ℚ) ≤ x - ⌊x⌋ := by linarith [Int.floor_le x]
  have h1 : x - ⌊x⌋ < 1 := by linarith [Int.lt_floor_add_one x]
  unfold roundHalfEven
  simp only
  split_ifs with ha hb hc
  · left; rw [abs_lt]; constructor <;> linarith
  · left; rw [abs_lt]; push_cast; constructor <;> linarith
  · right
    have hr : x - ⌊x⌋ = 1/2 := le_antisymm (not_lt.mp hb) (not_lt.mp ha)
    exact ⟨by rw [hr]; norm_num, hc⟩
  · right
    have hr : x - ⌊x⌋ = 1/2 := le_antisymm (not_lt.mp hb) (not_lt.mp ha)
    refine ⟨?_, by omega⟩
    push_cast
    rw [show x - ((⌊x⌋ : ℚ) + 1) = (x - ⌊x⌋) - 1 by ring, hr]
    norm_num

/-- An integer within one half of `x` (even, at exactly one half) is the rounding of `x`. -/
theorem roundHalfEven_unique (x : ℚ) (n : ℤ)
    (h : |x - n| < 1/2 ∨ (|x - n| = 1/2 ∧ n % 2 = 0)) : roundHalfEven x = n := by
  rcases roundHalfEven_char x with c | ⟨c, ce⟩ <;> rcases h with h | ⟨h, he⟩
  · rw [abs_lt] at c h
    have a1 : ((roundHalfEven x : ℤ) : ℚ) < (n : ℚ) + 1 := by linarith
    have a2 : (n : ℚ) < ((roundHalfEven x : ℤ) : ℚ) + 1 := by linarith
    have b1 : roundHalfEven x < n + 1 := by exact_mod_cast a1
    have b2 : n < roundHalfEven x + 1 := by exact_mod_cast a2
    omega
  · rw [abs_lt] at c
    rcases abs_eq (by norm_num : (0 : ℚ) ≤ 1/2) |>.mp h with h | h
    · have a1 : ((roundHalfEven x : ℤ) : ℚ) < (n : ℚ) + 1 := by linarith
      have a2 : (n : ℚ) < ((roundHalfEven x : ℤ) : ℚ) := by linarith
      have b1 : roundHalfEven x < n + 1 := by exact_mod_cast a1
      have b2 : n < roundHalfEven x := by exact_mod_cast a2
      omega
    · have a1 : ((roundHalfEven x : ℤ) : ℚ) < (n : ℚ) := by linarith
      have a2 : (n : ℚ) < ((roundHalfEven x : ℤ) : ℚ) + 1 := by linarith
      have b1 : roundHalfEven x < n := by exact_mod_cast a1
      have b2 : n < roundHalfEven x + 1 := by exact_mod_cast a2
      omega
  · rw [abs_lt] at h
    rcases abs_eq (by norm_num : (0 : ℚ) ≤ 1/2) |>.mp c with c | c
    · have a1 : (n : ℚ) < ((roundHalfEven x : ℤ) : ℚ) + 1 := by linarith
      have a2 : ((roundHalfEven x : ℤ) : ℚ) < (n : ℚ) := by linarith
      have b1 : n < roundHalfEven x + 1 := by exact_mod_cast a1
      have b2 : roundHalfEven x < n := by exact_mod_cast a2
      omega
    · have a1 : (n : ℚ) < ((roundHalfEven x : ℤ) : ℚ) := by linarith
      have a2 : ((roundHalfEven x : ℤ) : ℚ) < (n : ℚ) + 1 := by linarith
      have b1 : n < roundHalfEven x := by exact_mod_cast a1
      have b2 : roundHalfEven x < n + 1 := by exact_mod_cast a2
      omega
  · rcases abs_eq (by norm_num : (0 : ℚ) ≤ 1/2) |>.mp c with c | c <;>
      rcases abs_eq (by norm_num : (0 : ℚ) ≤ 1/2) |>.mp h with h | h
    · have a : ((roundHalfEven x : ℤ) : ℚ) = (n : ℚ) := by linarith
      exact_mod_cast a
    · have a : ((roundHalfEven x : ℤ) : ℚ) + 1 = (n : ℚ) := by linarith
      have b : roundHalfEven x + 1 = n := by exact_mod_cast a
      omega
    · have a : ((roundHalfEven x : ℤ) : ℚ) = (n : ℚ) + 1 := by linarith
      have b : roundHalfEven x = n + 1 := by exact_mod_cast a
      omega
    · have a : ((roundHalfEven x : ℤ) : ℚ) = (n : ℚ) := by linarith
      exact_mod_cast a

theorem roundHalfEven_intCast (n : ℤ) : roundHalfEven (n : ℚ) = n :=
  roundHalfEven_unique _ _ (Or.inl (by simp))

theorem roundHalfEven_neg (x : ℚ) : roundHalfEven (-x) = -roundHalfEven x := by
  apply roundHalfEven_unique
  have e : |(-x) - ((-roundHalfEven x : ℤ) : ℚ)| = |x - roundHalfEven x| := by
    push_cast
    rw [show -x - -(roundHalfEven x : ℚ) = -(x - roundHalfEven x) by ring, abs_neg]
  rw [e]
  rcases roundHalfEven_char x with c | ⟨c, ce⟩
  · exact Or.inl c
  · exact Or.inr ⟨c, by omega⟩

theorem roundHalfEven_mono {x y : ℚ} (h : x ≤ y) : roundHalfEven x ≤ roundHalfEven y := by
  by_contra hlt
  push_neg at hlt
  have hx : |x - roundHalfEven x| ≤ 1/2 := by
    rcases roundHalfEven_char x with c | ⟨c, _⟩
    · exact c.le
    · exact c.le
  have hy : |y - roundHalfEven y| ≤ 1/2 := by
    rcases roundHalfEven_char y with c | ⟨c, _⟩
    · exact c.le
    · exact c.le
  rw [abs_le] at hx hy
  have h1 : ((roundHalfEven y : ℤ) : ℚ) + 1 ≤ (roundHalfEven x : ℚ) := by exact_mod_cast hlt
  have hxy : x = y := by linarith
  rw [hxy] at hlt
  exact lt_irrefl _ hlt


theorem two_zpow_le {m n : ℤ} (h : m ≤ n) : (2 : ℚ) ^ m ≤ (2 : ℚ) ^ n :=
  (zpow_le_zpow_iff_right₀ (by norm_num : (1 : ℚ) < 2)).mpr h

theorem two_zpow_lt_imp {m n : ℤ} (h : (2 : ℚ) ^ m < (2 : ℚ) ^ n) : m < n :=
  (zpow_lt_zpow_iff_right₀ (by norm_num : (1 : ℚ) < 2)).mp h

theorem two_zpow_pos (e : ℤ) : (0 : ℚ) < (2 : ℚ) ^ e := by positivity

theorem two_zpow_add (a b : ℤ) : (2 : ℚ) ^ (a + b) = (2 : ℚ) ^ a * (2 : ℚ) ^ b :=
  zpow_add₀ (by norm_num) a b

theorem fl_zero : fl 0 = 0 := by simp [fl]

theorem fl_of_ne {x : ℚ} (hx : x ≠ 0) :
    fl x = (roundHalfEven (x / (2 : ℚ) ^ ulpExp x) : ℚ) * (2 : ℚ) ^ ulpExp x := by
  simp [fl, hx, pow2_eq_zpow]

theorem binade_neg (x : ℚ) : binade (-x) = binade x := by
  simp [binade]

theorem ulpExp_neg (x : ℚ) : ulpExp (-x) = ulpExp x := by
  simp [ulpExp, binade_neg]

theorem fl_neg (x : ℚ) : fl (-x) = -fl x := by
  by_cases hx : x = 0
  · simp [hx, fl_zero]
  · rw [fl_of_ne hx, fl_of_ne (neg_ne_zero.mpr hx), ulpExp_neg, neg_div, roundHalfEven_neg]
    push_cast
    ring

theorem binade_le_of_abs_le {x y : ℚ} (hx : x ≠ 0) (hy : y ≠ 0) (h : |x| ≤ |y|) :
    binade x ≤ binade y := by
  have hx1 := (binade_spec x hx).1
  have hy2 := (binade_spec y hy).2
  have := two_zpow_lt_imp (lt_of_le_of_lt (hx1.trans h) hy2)
  omega

theorem ulpExp_le_of_abs_le {x y : ℚ} (hx : x ≠ 0) (hy : y ≠ 0) (h : |x| ≤ |y|) :
    ulpExp x ≤ ulpExp y := by
  have := binade_le_of_abs_le hx hy h
  unfold ulpExp
  omega

theorem fl_le_of_scaled_le {x : ℚ} (hx : x ≠ 0) (n : ℤ) (h : x / (2 : ℚ) ^ ulpExp x ≤ n) :
    fl x ≤ (n : ℚ) * (2 : ℚ) ^ ulpExp x := by
  rw [fl_of_ne hx]
  have := roundHalfEven_mono h
  rw [roundHalfEven_intCast] at this
  exact mul_le_mul_of_nonneg_right (by exact_mod_cast this) (two_zpow_pos _).le

theorem le_fl_of_le_scaled {x : ℚ} (hx : x ≠ 0) (n : ℤ) (h : (n : ℚ) ≤ x / (2 : ℚ) ^ ulpExp x) :
    (n : ℚ) * (2 : ℚ) ^ ulpExp x ≤ fl x := by
  rw [fl_of_ne hx]
  have := roundHalfEven_mono h
  rw [roundHalfEven_intCast] at this
  exact mul_le_mul_of_nonneg_right (by exact_mod_cast this) (two_zpow_pos _).le

theorem fl_nonneg {x : ℚ} (h : 0 ≤ x) : 0 ≤ fl x := by
  by_cases hx : x = 0
  · simp [hx, fl_zero]
  · have := le_fl_of_le_scaled hx 0 (by
      simp only [Int.cast_zero]
      exact div_nonneg h (two_zpow_pos _).le)
    simpa using this

theorem fl_mono_pos {x y : ℚ} (hx : 0 < x) (hxy : x ≤ y) : fl x ≤ fl y := by
  have hy : 0 < y := lt_of_lt_of_le hx hxy
  have hx0 : x ≠ 0 := hx.ne'
  have hy0 : y ≠ 0 := hy.ne'
  have hexp : ulpExp x ≤ ulpExp y :=
    ulpExp_le_of_abs_le hx0 hy0 (by rw [abs_of_pos hx, abs_of_pos hy]; exact hxy)
  rcases eq_or_lt_of_le hexp with he | he
  · rw [fl_of_ne hx0, fl_of_ne hy0, he]
    have : x / (2 : ℚ) ^ ulpExp y ≤ y / (2 : ℚ) ^ ulpExp y :=
      div_le_div_of_nonneg_right hxy (two_zpow_pos _).le
    have := roundHalfEven_mono this
    exact mul_le_mul_of_nonneg_right (by exact_mod_cast this) (two_zpow_pos _).le
  · -- `x` and `y` lie in different binades: a power of two separates the roundings
    have hby : ulpExp y = binade y - 52 := by unfold ulpExp at he ⊢; omega
    have hbx : binade x - 52 ≤ ulpExp x := by unfold ulpExp; omega
    have hylo := (binade_spec y hy0).1
    have hxhi := (binade_spec x hx0).2
    rw [abs_of_pos hy] at hylo
    rw [abs_of_pos hx] at hxhi
    have h1 : fl x ≤ ((2 ^ 53 : ℤ) : ℚ) * (2 : ℚ) ^ ulpExp x := by
      apply fl_le_of_scaled_le hx0
      rw [div_le_iff₀ (two_zpow_pos _)]
      calc x ≤ (2 : ℚ) ^ (binade x + 1) := hxhi.le
        _ ≤ (2 : ℚ) ^ (53 + ulpExp x) := two_zpow_le (by omega)
        _ = ((2 ^ 53 : ℤ) : ℚ) * (2 : ℚ) ^ ulpExp x := by
            rw [two_zpow_add]; norm_num
    have h2 : ((2 ^ 52 : ℤ) : ℚ) * (2 : ℚ) ^ ulpExp y ≤ fl y := by
      apply le_fl_of_le_scaled hy0
      rw [le_div_iff₀ (two_zpow_pos _)]
      calc ((2 ^ 52 : ℤ) : ℚ) * (2 : ℚ) ^ ulpExp y = (2 : ℚ) ^ (52 + ulpExp y) := by
            rw [two_zpow_add]; norm_num
        _ = (2 : ℚ) ^ binade y := by rw [hby]; congr 1; ring
        _ ≤ y := hylo
    calc fl x ≤ ((2 ^ 53 : ℤ) : ℚ) * (2 : ℚ) ^ ulpExp x := h1
      _ = (2 : ℚ) ^ (53 + ulpExp x) := by rw [two_zpow_add]; norm_num
      _ ≤ (2 : ℚ) ^ (52 + ulpExp y) := two_zpow_le (by omega)
      _ = ((2 ^ 52 : ℤ) : ℚ) * (2 : ℚ) ^ ulpExp y := by rw [two_zpow_add]; norm_num
      _ ≤ fl y := h2

/-- Rounding to binary64 is monotone. -/
theorem fl_mono {x y : ℚ} (h : x ≤ y) : fl x ≤ fl y := by
  rcases lt_trichotomy x 0 with hx | hx | hx
  · rcases lt_or_le y 0 with hy | hy
    · have := fl_mono_pos (neg_pos.mpr hy) (neg_le_neg h)
      rw [fl_neg, fl_neg] at this
      linarith
    · have h1 : fl x ≤ 0 := by
        have := fl_nonneg (neg_nonneg.mpr hx.le)
        rw [fl_neg] at this
        linarith
      exact h1.trans (fl_nonneg hy)
  · rw [hx, fl_zero]; exact fl_nonneg (hx ▸ h)
  · exact fl_mono_pos hx h


theorem fl_rep_lt (m e : ℤ) (hm : |m| < 2 ^ 53) (he : -1074 ≤ e) :
    fl ((m : ℚ) * (2 : ℚ) ^ e) = (m : ℚ) * (2 : ℚ) ^ e := by
  by_cases hm0 : m = 0
  · simp [hm0, fl_zero]
  have hy0 : (m : ℚ) * (2 : ℚ) ^ e ≠ 0 :=
    mul_ne_zero (by exact_mod_cast hm0) (two_zpow_pos e).ne'
  have habs : |(m : ℚ) * (2 : ℚ) ^ e| < (2 : ℚ) ^ (53 + e) := by
    rw [abs_mul, abs_of_pos (two_zpow_pos e), two_zpow_add]
    apply mul_lt_mul_of_pos_right _ (two_zpow_pos e)
    have : ((|m| : ℤ) : ℚ) < ((2 ^ 53 : ℤ) : ℚ) := by exact_mod_cast hm
    rw [Int.cast_abs] at this
    rw [zpow_ofNat]
    exact_mod_cast this
  have hb := two_zpow_lt_imp (lt_of_le_of_lt (binade_spec _ hy0).1 habs)
  have hu : ulpExp ((m : ℚ) * (2 : ℚ) ^ e) ≤ e := by unfold ulpExp; omega
  rw [fl_of_ne hy0]
  obtain ⟨d, hd⟩ := Int.eq_ofNat_of_zero_le (sub_nonneg.mpr hu)
  have he' : e = ulpExp ((m : ℚ) * (2 : ℚ) ^ e) + (d : ℤ) := by omega
  have hs : (m : ℚ) * (2 : ℚ) ^ e / (2 : ℚ) ^ ulpExp ((m : ℚ) * (2 : ℚ) ^ e)
      = ((m * 2 ^ d : ℤ) : ℚ) := by
    rw [div_eq_iff (two_zpow_pos _).ne']
    conv_lhs => rw [he', two_zpow_add, zpow_natCast]
    push_cast
    ring
  rw [hs, roundHalfEven_intCast]
  conv_rhs => rw [he', two_zpow_add, zpow_natCast]
  push_cast
  ring

/-- A significand of at most 53 bits with an exponent in range is a float64. -/
theorem fl_rep (m e : ℤ) (hm : |m| ≤ 2 ^ 53) (he : -1074 ≤ e) :
    fl ((m : ℚ) * (2 : ℚ) ^ e) = (m : ℚ) * (2 : ℚ) ^ e := by
  rcases lt_or_eq_of_le hm with h | h
  · exact fl_rep_lt m e h he
  · rcases abs_eq (by norm_num : (0 : ℤ) ≤ 2 ^ 53) |>.mp h with h | h
    · have e1 : (m : ℚ) * (2 : ℚ) ^ e = ((2 ^ 52 : ℤ) : ℚ) * (2 : ℚ) ^ (e + 1) := by
        rw [h, two_zpow_add]; norm_num; ring
      rw [e1]
      exact fl_rep_lt _ _ (by norm_num) (by omega)
    · have e1 : (m : ℚ) * (2 : ℚ) ^ e = ((-2 ^ 52 : ℤ) : ℚ) * (2 : ℚ) ^ (e + 1) := by
        rw [h, two_zpow_add]; norm_num; ring
      rw [e1]
      exact fl_rep_lt _ _ (by norm_num) (by omega)

/-- Rounding to binary64 is idempotent: a rounded value is a float64. -/
theorem fl_idem (x : ℚ) : fl (fl x) = fl x := by
  by_cases hx : x = 0
  · simp [hx, fl_zero]
  have hb : binade x - 52 ≤ ulpExp x := by unfold ulpExp; omega
  have hlo : -1074 ≤ ulpExp x := by unfold ulpExp; omega
  have hs : |x / (2 : ℚ) ^ ulpExp x| ≤ ((2 ^ 53 : ℤ) : ℚ) := by
    rw [abs_div, abs_of_pos (two_zpow_pos (ulpExp x)), div_le_iff₀ (two_zpow_pos _)]
    calc |x| ≤ (2 : ℚ) ^ (binade x + 1) := (binade_spec x hx).2.le
      _ ≤ (2 : ℚ) ^ (53 + ulpExp x) := two_zpow_le (by omega)
      _ = ((2 ^ 53 : ℤ) : ℚ) * (2 : ℚ) ^ ulpExp x := by rw [two_zpow_add]; norm_num
  rw [abs_le] at hs
  have h1 := roundHalfEven_mono hs.2
  have h2 := roundHalfEven_mono hs.1
  rw [roundHalfEven_intCast] at h1
  rw [← Int.cast_neg, roundHalfEven_intCast] at h2
  rw [fl_of_ne hx]
  exact fl_rep _ _ (abs_le.mpr ⟨h2, h1⟩) hlo

theorem isFloat64_fl (x : ℚ) : isFloat64 (fl x) := fl_idem x

theorem fl_intCast (n : ℤ) (h : |n| ≤ 2 ^ 53) : fl (n : ℚ) = n := by
  have := fl_rep n 0 h (by norm_num)
  simpa using this


/-! ### `math.Round`, `int64(·)`, `Duration.Seconds` -/

theorem goRound_mono {x y : ℚ} (h : x ≤ y) : goRound x ≤ goRound y := by
  unfold goRound
  split_ifs with hx hy hy
  · exact_mod_cast Int.floor_mono (by linarith : x + 1/2 ≤ y + 1/2)
  · linarith
  · have h1 : (0 : ℤ) ≤ ⌊-x + 1/2⌋ := Int.floor_nonneg.mpr (by linarith)
    have h2 : (0 : ℤ) ≤ ⌊y + 1/2⌋ := Int.floor_nonneg.mpr (by linarith)
    have h1' : (0 : ℚ) ≤ (⌊-x + 1/2⌋ : ℤ) := by exact_mod_cast h1
    have h2' : (0 : ℚ) ≤ (⌊y + 1/2⌋ : ℤ) := by exact_mod_cast h2
    linarith
  · have : ⌊-y + 1/2⌋ ≤ ⌊-x + 1/2⌋ := Int.floor_mono (by linarith : -y + 1/2 ≤ -x + 1/2)
    have : ((⌊-y + 1/2⌋ : ℤ) : ℚ) ≤ (⌊-x + 1/2⌋ : ℤ) := by exact_mod_cast this
    linarith

theorem goRound_zero : goRound 0 = 0 := by
  unfold goRound
  norm_num

theorem goRound_int (x : ℚ) : ∃ n : ℤ, goRound x = n := by
  unfold goRound
  split_ifs
  · exact ⟨_, rfl⟩
  · exact ⟨-⌊-x + 1/2⌋, by push_cast; ring⟩

theorem roundFloat64ToNanos_mono {x y : ℚ} (h : x ≤ y) :
    roundFloat64ToNanos x ≤ roundFloat64ToNanos y := by
  unfold roundFloat64ToNanos
  apply fl_mono
  apply div_le_div_of_nonneg_right _ (by norm_num)
  apply goRound_mono
  apply fl_mono
  linarith

theorem truncToZero_mono {x y : ℚ} (h : x ≤ y) : truncToZero x ≤ truncToZero y := by
  unfold truncToZero
  split_ifs with hx hy hy
  · exact Int.floor_mono h
  · linarith
  · have h1 : (0 : ℤ) ≤ ⌊-x⌋ := Int.floor_nonneg.mpr (by linarith)
    have h2 : (0 : ℤ) ≤ ⌊y⌋ := Int.floor_nonneg.mpr hy
    omega
  · have : ⌊-y⌋ ≤ ⌊-x⌋ := Int.floor_mono (by linarith : -y ≤ -x)
    omega

theorem truncToZero_lt {x : ℚ} (h : x < 2 ^ 63) : truncToZero x < 2 ^ 63 := by
  unfold truncToZero
  split_ifs with hx
  · have : (⌊x⌋ : ℚ) < ((2 ^ 63 : ℤ) : ℚ) := lt_of_le_of_lt (Int.floor_le x) (by push_cast; exact h)
    exact_mod_cast this
  · have h1 : (0 : ℤ) ≤ ⌊-x⌋ := Int.floor_nonneg.mpr (by push_neg at hx; linarith)
    have : (0 : ℤ) < 2 ^ 63 := by norm_num
    omega

theorem lt_truncToZero {x : ℚ} (h : -2 ^ 63 < x) : -2 ^ 63 < truncToZero x := by
  unfold truncToZero
  split_ifs with hx
  · have h1 : (0 : ℤ) ≤ ⌊x⌋ := Int.floor_nonneg.mpr hx
    have : (0 : ℤ) < 2 ^ 63 := by norm_num
    omega
  · have : (⌊-x⌋ : ℚ) < ((2 ^ 63 : ℤ) : ℚ) :=
      lt_of_le_of_lt (Int.floor_le (-x)) (by push_cast; linarith)
    have : ⌊-x⌋ < 2 ^ 63 := by exact_mod_cast this
    omega

theorem toInt64_of_range {x : ℚ} (h1 : -2 ^ 63 < x) (h2 : x < 2 ^ 63) :
    toInt64 x = truncToZero x := by
  have a := lt_truncToZero h1
  have b := truncToZero_lt h2
  unfold toInt64
  simp only
  rw [if_pos ⟨a.le, b⟩]

theorem wrap64_neg_of_range {n : ℤ} (h1 : -2 ^ 63 < n) (h2 : n < 2 ^ 63) : wrap64 (-n) = -n := by
  unfold wrap64
  norm_num at h1 h2 ⊢
  omega

theorem tdiv_tmod_billion (d : ℤ) :
    d = d.tdiv 1000000000 * 1000000000 + d.tmod 1000000000 ∧
    (0 ≤ d → 0 ≤ d.tdiv 1000000000 ∧ 0 ≤ d.tmod 1000000000 ∧ d.tmod 1000000000 < 1000000000) ∧
    (d ≤ 0 → d.tdiv 1000000000 ≤ 0 ∧ -1000000000 < d.tmod 1000000000 ∧
      d.tmod 1000000000 ≤ 0) := by
  have e := Int.tdiv_add_tmod' d 1000000000
  refine ⟨e.symm, ?_, ?_⟩
  · intro h
    have q := Int.tdiv_eq_ediv h (by norm_num : (0 : ℤ) ≤ 1000000000)
    have r := Int.tmod_eq_emod h (by norm_num : (0 : ℤ) ≤ 1000000000)
    rw [q, r]
    omega
  · intro h
    have q : d.tdiv 1000000000 = -((-d) / 1000000000) := by
      have := Int.neg_tdiv (-d) 1000000000
      rw [neg_neg] at this
      rw [this, Int.tdiv_eq_ediv (by omega) (by norm_num)]
    rw [q] at e ⊢
    omega


theorem fl_one : fl 1 = 1 := by
  have := fl_intCast 1 (by norm_num)
  simpa using this

theorem fl_neg_one : fl (-1) = -1 := by
  rw [fl_neg, fl_one]

theorem fracSeconds_mono {n m : ℤ} (h : n ≤ m) :
    fl (fl (n : ℚ) / 1000000000) ≤ fl (fl (m : ℚ) / 1000000000) := by
  apply fl_mono
  apply div_le_div_of_nonneg_right _ (by norm_num)
  apply fl_mono
  exact_mod_cast h

theorem fracSeconds_zero : fl (fl ((0 : ℤ) : ℚ) / 1000000000) = 0 := by
  simp [fl_zero]

theorem fracSeconds_billion : fl (fl ((1000000000 : ℤ) : ℚ) / 1000000000) = 1 := by
  rw [fl_intCast _ (by norm_num)]
  norm_num
  exact fl_one

theorem fracSeconds_neg_billion : fl (fl ((-1000000000 : ℤ) : ℚ) / 1000000000) = -1 := by
  rw [fl_intCast _ (by norm_num)]
  norm_num
  exact fl_neg_one

theorem fl_seconds_part (d : ℤ) (h1 : -2 ^ 63 ≤ d) (h2 : d ≤ 2 ^ 63 - 1) :
    fl ((d.tdiv 1000000000 : ℤ) : ℚ) = (d.tdiv 1000000000 : ℤ) := by
  apply fl_intCast
  obtain ⟨e, hp, hn⟩ := tdiv_tmod_billion d
  norm_num at h1 h2 ⊢
  rw [abs_le]
  rcases le_total 0 d with h | h
  · have := hp h
    constructor <;> omega
  · have := hn h
    constructor <;> omega

/-- The conversion `Duration.Seconds` is monotone on the `Duration` range. -/
theorem Seconds_mono {d₁ d₂ : ℤ} (h : d₁ ≤ d₂) (h1 : -2 ^ 63 ≤ d₁) (h2 : d₂ ≤ 2 ^ 63 - 1) :
    Duration.Seconds d₁ ≤ Duration.Seconds d₂ := by
  unfold Duration.Seconds
  simp only
  apply fl_mono
  rw [fl_seconds_part d₁ h1 (h.trans h2), fl_seconds_part d₂ (h1.trans h) h2]
  obtain ⟨e1, p1, n1⟩ := tdiv_tmod_billion d₁
  obtain ⟨e2, p2, n2⟩ := tdiv_tmod_billion d₂
  set q1 := d₁.tdiv 1000000000
  set r1 := d₁.tmod 1000000000
  set q2 := d₂.tdiv 1000000000
  set r2 := d₂.tmod 1000000000
  have f0 := fracSeconds_zero
  have fb := fracSeconds_billion
  have fnb := fracSeconds_neg_billion
  have hq : q1 ≤ q2 := by
    rcases le_total 0 d₁ with s1 | s1 <;> rcases le_total 0 d₂ with s2 | s2
    · have := p1 s1; have := p2 s2; omega
    · have := p1 s1; have := n2 s2; omega
    · have := n1 s1; have := p2 s2; omega
    · have := n1 s1; have := n2 s2; omega
  rcases eq_or_lt_of_le hq with hq | hq
  · have hr : r1 ≤ r2 := by omega
    have := fracSeconds_mono hr
    rw [hq]
    linarith
  · have hq' : ((q1 : ℤ) : ℚ) + 1 ≤ (q2 : ℚ) := by exact_mod_cast hq
    rcases le_total 0 d₁ with s1 | s1
    · have a := p1 s1
      have b := p2 (s1.trans h)
      have u1 := fracSeconds_mono (show r1 ≤ 1000000000 by omega)
      have u2 := fracSeconds_mono (show (0 : ℤ) ≤ r2 by omega)
      rw [fb] at u1
      rw [f0] at u2
      linarith
    · have a := n1 s1
      have u1 := fracSeconds_mono (show r1 ≤ 0 by omega)
      rw [f0] at u1
      rcases le_total 0 d₂ with s2 | s2
      · have b := p2 s2
        have u2 := fracSeconds_mono (show (0 : ℤ) ≤ r2 by omega)
        rw [f0] at u2
        linarith
      · have b := n2 s2
        have u2 := fracSeconds_mono (show (-1000000000 : ℤ) ≤ r2 by omega)
        rw [fnb] at u2
        linarith

theorem Seconds_zero : Duration.Seconds 0 = 0 := by
  simp [Duration.Seconds, fl_zero]

theorem Seconds_neg {d : ℤ} (h : d < 0) (h1 : -2 ^ 63 ≤ d) : Duration.Seconds d < 0 := by
  have hm : Duration.Seconds d ≤ Duration.Seconds (-1) :=
    Seconds_mono (by omega) h1 (by norm_num)
  have : Duration.Seconds (-1) < 0 := by decide!
  linarith

theorem Sub_mono {t₁ t₂ : Time} (u : Time) (h : t₁ ≤ t₂) : Time.Sub t₁ u ≤ Time.Sub t₂ u := by
  unfold Time.Sub Time Duration at *
  simp only
  norm_num
  split_ifs <;> omega

theorem Sub_range (t u : Time) : -2 ^ 63 ≤ Time.Sub t u ∧ Time.Sub t u ≤ 2 ^ 63 - 1 := by
  unfold Time.Sub Time Duration at *
  simp only
  norm_num
  split_ifs <;> constructor <;> omega

theorem Sub_neg {t u : Time} (h : t < u) : Time.Sub t u < 0 := by
  unfold Time.Sub Time Duration at *
  simp only
  norm_num
  split_ifs <;> omega

theorem elapsed_mono (s : Tracking) {t₁ t₂ : Time} (h : t₁ ≤ t₂) :
    Duration.Seconds (Time.Sub t₁ s.RefTime) ≤ Duration.Seconds (Time.Sub t₂ s.RefTime) :=
  Seconds_mono (Sub_mono _ h) (Sub_range _ _).1 (Sub_range _ _).2

/-- With a non-negative error rate the dispersion grows with the clock reading. -/
theorem dispersion_le_of_rate_nonneg (s : Tracking) {t₁ t₂ : Time}
    (hrate : 0 ≤ errorRate s) (h : t₁ ≤ t₂) :
    calculateDispersion s t₁ ≤ calculateDispersion s t₂ := by
  unfold calculateDispersion
  simp only
  apply fl_mono
  have := fl_mono (mul_le_mul_of_nonneg_right (elapsed_mono s h) hrate)
  linarith

/-- The error bound grows with the root dispersion. -/
theorem errorBound_mono_dispersion (s : Tracking) {d₁ d₂ : ℚ} (h : d₁ ≤ d₂) :
    errorBound { s with RootDispersion := d₁ } ≤ errorBound { s with RootDispersion := d₂ } := by
  unfold errorBound
  simp only
  apply roundFloat64ToNanos_mono
  apply fl_mono
  have := fl_mono (show |s.CurrentCorrection| + d₁ ≤ |s.CurrentCorrection| + d₂ by linarith)
  linarith

theorem isFloat64_abs {x : ℚ} (h : isFloat64 x) : isFloat64 |x| := by
  unfold isFloat64 at h ⊢
  rcases abs_cases x with ⟨e, _⟩ | ⟨e, _⟩
  · rw [e, h]
  · rw [e, fl_neg, h]


/-! ### The interval in the int64 range -/

/-- When the bound fits int64, the interval is the reading plus and minus the
truncated nanosecond count. -/
theorem boundsFromTracking_of_range (tracking : Tracking) (now : Time)
    (h1 : -2 ^ 63 < fl (errorBound tracking * 1000000000))
    (h2 : fl (errorBound tracking * 1000000000) < 2 ^ 63) :
    boundsFromTracking tracking now =
      { Earliest := now - truncToZero (fl (errorBound tracking * 1000000000))
        Latest := now + truncToZero (fl (errorBound tracking * 1000000000)) } := by
  unfold boundsFromTracking errorBoundNanos Time.Add
  rw [toInt64_of_range h1 h2, wrap64_neg_of_range (lt_truncToZero h1) (truncToZero_lt h2)]
  rfl

theorem truncToZero_nonneg {x : ℚ} (h : 0 ≤ x) : 0 ≤ truncToZero x := by
  unfold truncToZero
  rw [if_pos h]
  exact Int.floor_nonneg.mpr h

theorem truncToZero_pos {x : ℚ} (h : 1 ≤ x) : 1 ≤ truncToZero x := by
  unfold truncToZero
  rw [if_pos (by linarith)]
  exact Int.le_floor.mpr (by simpa using h)

theorem roundFloat64ToNanos_pos {v : ℚ} (h : 0 < roundFloat64ToNanos v) :
    fl (1 / 1000000000) ≤ roundFloat64ToNanos v := by
  unfold roundFloat64ToNanos at h ⊢
  obtain ⟨k, hk⟩ := goRound_int (fl (v * 1000000000))
  rw [hk] at h ⊢
  have hk1 : 1 ≤ k := by
    by_contra hlt
    push_neg at hlt
    have : (k : ℚ) ≤ 0 := by exact_mod_cast (by omega : k ≤ 0)
    have := fl_mono (show (k : ℚ) / 1000000000 ≤ 0 from
      div_nonpos_of_nonpos_of_nonneg this (by norm_num))
    rw [fl_zero] at this
    linarith
  apply fl_mono
  apply div_le_div_of_nonneg_right _ (by norm_num)
  exact_mod_cast hk1

theorem one_le_nanos_of_pos {e : ℚ} (h : fl (1 / 1000000000) ≤ e) :
    1 ≤ fl (e * 1000000000) := by
  have h1 : fl (fl (1 / 1000000000) * 1000000000) = 1 := by decide!
  have := fl_mono (show fl (1 / 1000000000) * 1000000000 ≤ e * 1000000000 by linarith)
  linarith


/-- On a service that holds a snapshot, `Now` returns and does not change the state. -/
theorem Now_of_tracking (c : TrueClock) (s : Tracking) (t₁ t₂ : Time) (hc : c.tracking = some s) :
    Now c t₁ t₂ =
      some (boundsFromTracking { s with RootDispersion := calculateDispersion s t₁ } t₂, c) := by
  simp only [Now, hc]

theorem Seconds_nonneg {d : ℤ} (h : 0 ≤ d) (h2 : d ≤ 2 ^ 63 - 1) : 0 ≤ Duration.Seconds d := by
  have := Seconds_mono h (by norm_num) h2
  rwa [Seconds_zero] at this

theorem roundFloat64ToNanos_zero : roundFloat64ToNanos 0 = 0 := by
  simp [roundFloat64ToNanos, fl_zero, goRound_zero]

/-- For a valid snapshot with a non-negative error rate, read at or after `refTime`,
the recomputed dispersion and the error bound are non-negative. -/
theorem errorBound_nonneg_of_valid (s : Tracking) (t : Time)
    (hd : 0 ≤ s.RootDispersion) (hdel : 0 ≤ s.RootDelay) (hrate : 0 ≤ errorRate s)
    (ht : s.RefTime ≤ t) :
    0 ≤ calculateDispersion s t ∧
    0 ≤ errorBound { s with RootDispersion := calculateDispersion s t } := by
  have hsub : 0 ≤ Time.Sub t s.RefTime := by
    unfold Time.Sub Time Duration at *
    simp only
    norm_num
    split_ifs <;> omega
  have hel := Seconds_nonneg hsub (Sub_range _ _).2
  have hdisp : 0 ≤ calculateDispersion s t := by
    unfold calculateDispersion
    simp only
    exact fl_nonneg (add_nonneg hd (fl_nonneg (mul_nonneg hel hrate)))
  refine ⟨hdisp, ?_⟩
  unfold errorBound
  simp only
  rw [← roundFloat64ToNanos_zero]
  apply roundFloat64ToNanos_mono
  exact fl_nonneg (add_nonneg (fl_nonneg (add_nonneg (abs_nonneg _) hdisp))
    (fl_nonneg (by linarith)))

/-! ## The end-to-end examples -/

/-- The two end-to-end examples of the specification hold on the code: zero elapsed
time gives `T0 ± 250000 ns`, five seconds of staleness give `± 255000 ns`. -/
theorem Now_examples :
    sExample.finite ∧
    Now (clockOf sExample) T0 T0 =
      some ({ Earliest := T0 - 250000, Latest := T0 + 250000 }, clockOf sExample) ∧
    Now (clockOf sExample) (T0 + 5000000000) (T0 + 5000000000) =
      some ({ Earliest := T0 + 5000000000 - 255000, Latest := T0 + 5000000000 + 255000 },
        clockOf sExample) := by
  decide!

/-! ## C1 -/

/-- C1 (code defect): with root dispersion `2^-26` s and `t = refTime`, the bound
rounded to the nanosecond is 15 ns (`math.Round` returns 15, `errorBound` is the
float64 nearest to `15e-9`), but `int64(errorBound * 1e9)` truncates
`14.999999999999998` to 14 and `Now` returns `[t - 14 ns, t + 14 ns]`. -/
theorem Now_truncates_rounded_bound :
    sTrunc.finite ∧ sTrunc.RefTime ≤ T0 ∧
    goRound (fl (fl (fl (|sTrunc.CurrentCorrection| + calculateDispersion sTrunc T0)
      + fl (sTrunc.RootDelay / 2)) * 1000000000)) = 15 ∧
    errorBound { sTrunc with RootDispersion := calculateDispersion sTrunc T0 }
      = fl (15 / 1000000000) ∧
    fl (fl (15 / 1000000000) * 1000000000) < 15 ∧
    Now (clockOf sTrunc) T0 T0 =
      some ({ Earliest := T0 - 14, Latest := T0 + 14 }, clockOf sTrunc) := by
  decide!

/-! ## C2 -/

/-- C2 (code defect): for the valid all-zero snapshot and a reading one second
before `refTime`, the interval returned by `Now` is inverted: earliest is 1000 ns
after the reading, latest 1000 ns before it, so the reading is not in the interval
and latest is before earliest.  The same happens after `refTime` with a negative
error rate: residual frequency error `-3` ppm, root dispersion `2^-10` s, read
1000 s after `refTime`. -/
theorem Now_excludes_reading_before_refTime :
    sZero.finite ∧ 0 ≤ sZero.RootDispersion ∧ 0 ≤ sZero.RootDelay ∧
    calculateDispersionFinite sZero (T0 - 1000000000) ∧
    Now (clockOf sZero) (T0 - 1000000000) (T0 - 1000000000) =
      some ({ Earliest := T0 - 1000000000 + 1000, Latest := T0 - 1000000000 - 1000 },
        clockOf sZero) ∧
    ¬ (T0 - 1000000000 + 1000 ≤ T0 - 1000000000 ∧
        T0 - 1000000000 ≤ T0 - 1000000000 - 1000) ∧
    T0 - 1000000000 - 1000 < T0 - 1000000000 + 1000 ∧
    sNeg.finite ∧ 0 ≤ sNeg.RootDispersion ∧ 0 ≤ sNeg.RootDelay ∧
    Now (clockOf sNeg) (T0 + 1000000000000) (T0 + 1000000000000) =
      some ({ Earliest := T0 + 1000000000000 + 1023438,
              Latest := T0 + 1000000000000 - 1023438 }, clockOf sNeg) := by
  decide!

/-- Whenever the error bound computed from the snapshot is non-negative and its
nanosecond count is below `2^63`, `Now` returns an interval that contains the clock
reading it is centred on, and the interval's latest end is strictly after its
earliest end when the error bound is positive. -/
theorem Now_contains_reading (c : TrueClock) (s : Tracking) (t₁ t₂ : Time)
    (hc : c.tracking = some s)
    (h0 : 0 ≤ errorBound { s with RootDispersion := calculateDispersion s t₁ })
    (hr : fl (errorBound { s with RootDispersion := calculateDispersion s t₁ } * 1000000000)
      < 2 ^ 63) :
    ∃ b, Now c t₁ t₂ = some (b, c) ∧ b.Earliest ≤ t₂ ∧ t₂ ≤ b.Latest ∧
      (0 < errorBound { s with RootDispersion := calculateDispersion s t₁ } →
        b.Earliest < b.Latest) := by
  have hx : 0 ≤ fl (errorBound { s with RootDispersion := calculateDispersion s t₁ }
      * 1000000000) := fl_nonneg (by linarith)
  have hlo : -2 ^ 63 < fl (errorBound { s with RootDispersion := calculateDispersion s t₁ }
      * 1000000000) := lt_of_lt_of_le (by norm_num) hx
  refine ⟨_, Now_of_tracking c s t₁ t₂ hc, ?_⟩
  rw [boundsFromTracking_of_range _ _ hlo hr]
  have hn := truncToZero_nonneg hx
  refine ⟨?_, ?_, ?_⟩
  · show t₂ - _ ≤ t₂
    unfold Time at *
    omega
  · show t₂ ≤ t₂ + _
    unfold Time at *
    omega
  · intro hpos
    have h1 := truncToZero_pos (one_le_nanos_of_pos (roundFloat64ToNanos_pos hpos))
    unfold errorBound at h1
    show t₂ - _ < t₂ + _
    unfold Time errorBound at *
    omega

/-- Where the interval is sound: for a valid snapshot (non-negative root dispersion
and root delay) with a non-negative error rate, read at or after `refTime`, with a
bound below `2^63` ns, `Now` returns an interval that contains the reading it is
centred on. -/
theorem Now_contains_reading_of_valid (c : TrueClock) (s : Tracking) (t₁ t₂ : Time)
    (hc : c.tracking = some s) (hd : 0 ≤ s.RootDispersion) (hdel : 0 ≤ s.RootDelay)
    (hrate : 0 ≤ errorRate s) (ht : s.RefTime ≤ t₁)
    (hr : fl (errorBound { s with RootDispersion := calculateDispersion s t₁ } * 1000000000)
      < 2 ^ 63) :
    ∃ b, Now c t₁ t₂ = some (b, c) ∧ b.Earliest ≤ t₂ ∧ t₂ ≤ b.Latest := by
  obtain ⟨b, hb, h1, h2, -⟩ :=
    Now_contains_reading c s t₁ t₂ hc (errorBound_nonneg_of_valid s t₁ hd hdel hrate ht).2 hr
  exact ⟨b, hb, h1, h2⟩

/-! ## C3 -/

/-- C3 (code defect): a poller cycle whose fetch fails stores the `nil` that
`pollTracking` returned with its error: whatever snapshot the service held, it
holds none after the cycle. -/
theorem pollerCycle_failed_fetch_clears_snapshot (c : TrueClock) (err : Error) :
    pollTracking (.error err) = some (none, some err) ∧
    pollerCycle c (.error err) = some { c with tracking := none } := by
  exact ⟨rfl, rfl⟩

/-! ## C4 -/

/-- C4 (code defect): a service state reachable from a successful `New` by one
poller cycle with a failed fetch, on which every call to `Now` panics. -/
theorem Now_panics_on_reachable_state :
    ∃ c, Reachable c ∧ ∀ t₁ t₂ : Time, Now c t₁ t₂ = none := by
  refine ⟨{ clockOf sZero with tracking := none }, ?_, fun _ _ => rfl⟩
  exact Reachable.cycle (clockOf sZero) _ (.error "i/o timeout")
    (Reachable.init (.ok 0) (.ok (.tracking sZero)) 0 1 _ rfl) rfl

/-! ## C7 -/

/-- C7 (counterexample): with residual frequency error `-3` ppm the error rate is
negative, and the dispersion one second after `refTime` is smaller than the
dispersion at `refTime`. -/
theorem calculateDispersion_decreases_with_negative_rate :
    sNeg.finite ∧ sNeg.RefTime ≤ T0 ∧ T0 < T0 + 1000000000 ∧
    calculateDispersionFinite sNeg T0 ∧ calculateDispersionFinite sNeg (T0 + 1000000000) ∧
    errorRate sNeg < 0 ∧
    calculateDispersion sNeg (T0 + 1000000000) < calculateDispersion sNeg T0 := by
  decide!

/-- C7 (range condition): monotonicity is stated where no operation overflows.  With
skew and residual frequency error `2^1023` ppm, both finite float64 values, the sum
`1.0 + skew + resid` reaches `2^1024`, beyond the largest finite float64: in the
code the error rate is `+Inf`, and the dispersion is `NaN` at `refTime`.  The
condition `calculateDispersionFinite` excludes this snapshot. -/
theorem calculateDispersionFinite_excludes_overflow :
    sBig.finite ∧ inFloat64Range sBig.SkewPPM ∧ inFloat64Range sBig.ResidFreqPPM ∧
    fl (fl (MaxClockError + sBig.SkewPPM) + sBig.ResidFreqPPM) = 2 ^ 1024 ∧
    maxFloat64 < 2 ^ 1024 ∧
    ¬ calculateDispersionFinite sBig T0 := by
  decide!

/-- C7 (amended): when no float64 operation of `calculateDispersion` overflows at
either time and the error rate computed from the snapshot,
`(1.0 + skewRatePPM + residualFreqErrorPPM) * 1e-6` in float64, is non-negative,
the dispersion computed at a later time is greater than or equal to the dispersion
computed at an earlier time, and both are finite float64 values. -/
theorem calculateDispersion_mono (s : Tracking) (t₁ t₂ : Time)
    (hf₁ : calculateDispersionFinite s t₁) (hf₂ : calculateDispersionFinite s t₂)
    (hrate : 0 ≤ errorRate s) (h : t₁ ≤ t₂) :
    calculateDispersion s t₁ ≤ calculateDispersion s t₂ ∧
    (isFloat64 (calculateDispersion s t₁) ∧ inFloat64Range (calculateDispersion s t₁)) ∧
    (isFloat64 (calculateDispersion s t₂) ∧ inFloat64Range (calculateDispersion s t₂)) :=
  ⟨dispersion_le_of_rate_nonneg s hrate h,
    ⟨isFloat64_fl _, hf₁.2.2.2.2.2.2.2⟩, ⟨isFloat64_fl _, hf₂.2.2.2.2.2.2.2⟩⟩

/-- C7 (amended), applied to the example snapshot at `refTime` and five seconds
later. -/
theorem calculateDispersion_mono_witness :
    calculateDispersionFinite sExample T0 ∧
    calculateDispersionFinite sExample (T0 + 5000000000) ∧
    0 ≤ errorRate sExample ∧ T0 ≤ T0 + 5000000000 ∧
    (calculateDispersion sExample T0 ≤ calculateDispersion sExample (T0 + 5000000000) ∧
    (isFloat64 (calculateDispersion sExample T0) ∧
      inFloat64Range (calculateDispersion sExample T0)) ∧
    (isFloat64 (calculateDispersion sExample (T0 + 5000000000)) ∧
      inFloat64Range (calculateDispersion sExample (T0 + 5000000000)))) :=
  ⟨by decide!, by decide!, by decide!, by decide!,
    calculateDispersion_mono sExample T0 (T0 + 5000000000) (by decide!) (by decide!)
      (by decide!) (by decide!)⟩

/-! ## C6 -/

/-- C6 (counterexample): for the all-zero snapshot read one second before
`refTime`, the computed dispersion is negative, below the root dispersion `0`. -/
theorem calculateDispersion_below_rootDispersion :
    sZero.finite ∧ T0 - 1000000000 < sZero.RefTime ∧
    calculateDispersion sZero (T0 - 1000000000) = -fl (1 / 1000000) ∧
    calculateDispersion sZero (T0 - 1000000000) < sZero.RootDispersion := by
  decide!

/-- C6 (amended): for a system time earlier than `refTime` the elapsed time is
negative and enters the dispersion as it is, not as 0: the dispersion is
`rootDispersion + elapsed * errorRate` in float64, which is at most
`rootDispersion` when the error rate is non-negative and at least `rootDispersion`
when the error rate is non-positive. -/
theorem calculateDispersion_before_refTime (s : Tracking) (t : Time)
    (hfin : isFloat64 s.RootDispersion) (ht : t < s.RefTime) :
    Duration.Seconds (Time.Sub t s.RefTime) < 0 ∧
    calculateDispersion s t =
      fl (s.RootDispersion + fl (Duration.Seconds (Time.Sub t s.RefTime) * errorRate s)) ∧
    (0 ≤ errorRate s → calculateDispersion s t ≤ s.RootDispersion) ∧
    (errorRate s ≤ 0 → s.RootDispersion ≤ calculateDispersion s t) := by
  have hneg : Duration.Seconds (Time.Sub t s.RefTime) < 0 :=
    Seconds_neg (Sub_neg ht) (Sub_range _ _).1
  refine ⟨hneg, rfl, ?_, ?_⟩
  · intro hrate
    unfold calculateDispersion
    simp only
    have h1 := fl_mono (mul_nonpos_of_nonpos_of_nonneg hneg.le hrate)
    rw [fl_zero] at h1
    have h2 := fl_mono (show s.RootDispersion
      + fl (Duration.Seconds (Time.Sub t s.RefTime) * errorRate s) ≤ s.RootDispersion by linarith)
    rw [hfin] at h2
    exact h2
  · intro hrate
    unfold calculateDispersion
    simp only
    have h1 := fl_mono (mul_nonneg_of_nonpos_of_nonpos hneg.le hrate)
    rw [fl_zero] at h1
    have h2 := fl_mono (show s.RootDispersion ≤ s.RootDispersion
      + fl (Duration.Seconds (Time.Sub t s.RefTime) * errorRate s) by linarith)
    rw [hfin] at h2
    exact h2

/-- C6 (amended), applied to the example snapshot read one second before
`refTime`. -/
theorem calculateDispersion_before_refTime_witness :
    isFloat64 sExample.RootDispersion ∧ T0 - 1000000000 < sExample.RefTime ∧
    (Duration.Seconds (Time.Sub (T0 - 1000000000) sExample.RefTime) < 0 ∧
    calculateDispersion sExample (T0 - 1000000000) =
      fl (sExample.RootDispersion
        + fl (Duration.Seconds (Time.Sub (T0 - 1000000000) sExample.RefTime)
          * errorRate sExample)) ∧
    (0 ≤ errorRate sExample →
      calculateDispersion sExample (T0 - 1000000000) ≤ sExample.RootDispersion) ∧
    (errorRate sExample ≤ 0 →
      sExample.RootDispersion ≤ calculateDispersion sExample (T0 - 1000000000))) :=
  ⟨by decide!, by decide!,
    calculateDispersion_before_refTime sExample (T0 - 1000000000) (by decide!) (by decide!)⟩

/-! ## C5 -/

/-- C5 (counterexample): a service constructed on a snapshot with residual
frequency error `-3` ppm; no poller cycle runs between the two calls, which are
half a second apart; the second interval is 2000 ns narrower than the first. -/
theorem Now_width_shrinks_with_negative_rate :
    sNeg.finite ∧
    New (.ok 0) (.ok (.tracking sNeg)) 0 = some (some (clockOf sNeg), none, 1) ∧
    Now (clockOf sNeg) T0 T0 =
      some ({ Earliest := T0 - 976563, Latest := T0 + 976563 }, clockOf sNeg) ∧
    Now (clockOf sNeg) (T0 + 500000000) (T0 + 500000000) =
      some ({ Earliest := T0 + 500000000 - 975563, Latest := T0 + 500000000 + 975563 },
        clockOf sNeg) ∧
    Bounds.width { Earliest := T0 + 500000000 - 975563, Latest := T0 + 500000000 + 975563 }
      < Bounds.width { Earliest := T0 - 976563, Latest := T0 + 976563 } := by
  decide!

/-- C5 (amended): for a service that holds the same snapshot at both calls, when
the snapshot's computed error rate is non-negative and both error bounds fit the
int64 nanosecond range, a `Now` call made at a later clock reading returns an
interval at least as wide as the one returned at the earlier reading. -/
theorem Now_width_mono (c : TrueClock) (s : Tracking) (t₁ u₁ t₂ u₂ : Time)
    (hc : c.tracking = some s) (hrate : 0 ≤ errorRate s) (ht : t₁ ≤ t₂)
    (hlo : -2 ^ 63 <
      fl (errorBound { s with RootDispersion := calculateDispersion s t₁ } * 1000000000))
    (hhi : fl (errorBound { s with RootDispersion := calculateDispersion s t₂ } * 1000000000)
      < 2 ^ 63) :
    ∃ b₁ b₂, Now c t₁ u₁ = some (b₁, c) ∧ Now c t₂ u₂ = some (b₂, c) ∧
      b₁.width ≤ b₂.width := by
  have hd := dispersion_le_of_rate_nonneg s hrate ht
  have he := errorBound_mono_dispersion s hd
  have hx := fl_mono (show
    errorBound { s with RootDispersion := calculateDispersion s t₁ } * 1000000000 ≤
    errorBound { s with RootDispersion := calculateDispersion s t₂ } * 1000000000 by linarith)
  refine ⟨_, _, Now_of_tracking c s t₁ u₁ hc, Now_of_tracking c s t₂ u₂ hc, ?_⟩
  rw [boundsFromTracking_of_range _ _ hlo (lt_of_le_of_lt hx hhi),
    boundsFromTracking_of_range _ _ (lt_of_lt_of_le hlo hx) hhi]
  have hn := truncToZero_mono hx
  unfold Bounds.width
  simp only
  unfold Time at *
  omega

/-- C5 (amended), applied to the example snapshot at `refTime` and five seconds
later. -/
theorem Now_width_mono_witness :
    0 ≤ errorRate sExample ∧ T0 ≤ T0 + 5000000000 ∧
    ∃ b₁ b₂, Now (clockOf sExample) T0 T0 = some (b₁, clockOf sExample) ∧
      Now (clockOf sExample) (T0 + 5000000000) (T0 + 5000000000)
        = some (b₂, clockOf sExample) ∧
      b₁.width ≤ b₂.width :=
  ⟨by decide!, by decide!,
    Now_width_mono (clockOf sExample) sExample T0 T0 (T0 + 5000000000) (T0 + 5000000000) rfl
      (by decide!) (by decide!) (by decide!) (by decide!)⟩


/-! ## C8 -/

/-- C8 (counterexample): with correction and root dispersion of `2^-32` s each the
sum, about 0.47 ns, rounds to 0 ns: the error bound is 0, below the magnitude of
the correction and below the root dispersion. -/
theorem errorBound_below_terms :
    sTiny.finite ∧ 0 ≤ sTiny.RootDispersion ∧ 0 ≤ sTiny.RootDelay ∧
    errorBound sTiny = 0 ∧
    errorBound sTiny < |sTiny.CurrentCorrection| ∧
    errorBound sTiny < sTiny.RootDispersion := by
  decide!

/-- C8 (amended): for every valid snapshot the error bound is greater than or
equal to the magnitude of the correction rounded to the nanosecond and to the root
dispersion rounded to the nanosecond. -/
theorem errorBound_ge_rounded_terms (s : Tracking) (hfin : s.finite)
    (hd : 0 ≤ s.RootDispersion) (hdel : 0 ≤ s.RootDelay) :
    roundFloat64ToNanos |s.CurrentCorrection| ≤ errorBound s ∧
    roundFloat64ToNanos s.RootDispersion ≤ errorBound s := by
  obtain ⟨hcc, -, -, -, hrd⟩ := hfin
  have habs : fl |s.CurrentCorrection| = |s.CurrentCorrection| := isFloat64_abs hcc
  have hsum1 : |s.CurrentCorrection| ≤ fl (|s.CurrentCorrection| + s.RootDispersion) := by
    have := fl_mono (show |s.CurrentCorrection| ≤ |s.CurrentCorrection| + s.RootDispersion by
      linarith)
    rwa [habs] at this
  have hsum2 : s.RootDispersion ≤ fl (|s.CurrentCorrection| + s.RootDispersion) := by
    have := fl_mono (show s.RootDispersion ≤ |s.CurrentCorrection| + s.RootDispersion by
      linarith [abs_nonneg s.CurrentCorrection])
    unfold isFloat64 at hrd
    rwa [hrd] at this
  have hhalf : 0 ≤ fl (s.RootDelay / 2) := fl_nonneg (by linarith)
  have htot : fl (|s.CurrentCorrection| + s.RootDispersion) ≤
      fl (fl (|s.CurrentCorrection| + s.RootDispersion) + fl (s.RootDelay / 2)) := by
    have := fl_mono (show fl (|s.CurrentCorrection| + s.RootDispersion) ≤
      fl (|s.CurrentCorrection| + s.RootDispersion) + fl (s.RootDelay / 2) by linarith)
    rwa [fl_idem] at this
  unfold errorBound
  exact ⟨roundFloat64ToNanos_mono (hsum1.trans htot), roundFloat64ToNanos_mono (hsum2.trans htot)⟩

/-- C8 (amended), applied to the example snapshot. -/
theorem errorBound_ge_rounded_terms_witness :
    sExample.finite ∧ 0 ≤ sExample.RootDispersion ∧ 0 ≤ sExample.RootDelay ∧
    roundFloat64ToNanos |sExample.CurrentCorrection| ≤ errorBound sExample ∧
    roundFloat64ToNanos sExample.RootDispersion ≤ errorBound sExample :=
  ⟨by decide!, by decide!, by decide!,
    errorBound_ge_rounded_terms sExample (by decide!) (by decide!) (by decide!)⟩

/-! ## C9 -/

/-- C9 (code defect): the full behaviour of `New`.  A failed dial and a fetch that
returns an error give that error, no service and no poller; a tracking reply gives
a service holding the fetched snapshot, no error and one poller started.  When the
dial succeeds and the fetch returns, without error, a reply of another dynamic type
(a malformed reply), `New` panics in the type assertion of `pollTracking`: it
returns neither an error nor a service. -/
theorem New_result (dial : Except Error Conn) (resp : Except Error Reply) (g : ℕ) :
    (∀ err, New (.error err) resp g = some (none, some err, g)) ∧
    (∀ conn err, New (.ok conn) (.error err) g = some (none, some err, g)) ∧
    (∀ conn t, New (.ok conn) (.ok (.tracking t)) g =
      some (some { chronyConn := conn, chronyClient := { Connection := conn },
                   tracking := some t }, none, g + 1)) ∧
    (∀ conn, pollTracking (.ok .other) = none ∧ New (.ok conn) (.ok .other) g = none) ∧
    ((∃ err g', New dial resp g = some (none, some err, g')) ↔
      ((∃ err, dial = .error err) ∨ (∃ conn err, dial = .ok conn ∧ resp = .error err))) ∧
    ((∃ c e g', New dial resp g = some (some c, e, g')) ↔
      (∃ conn t, dial = .ok conn ∧ resp = .ok (.tracking t) ∧
        New dial resp g =
          some (some { chronyConn := conn, chronyClient := { Connection := conn },
                       tracking := some t }, none, g + 1))) ∧
    (New dial resp g = none ↔ ∃ conn, dial = .ok conn ∧ resp = .ok .other) := by
  refine ⟨fun _ => rfl, fun _ _ => rfl, fun _ _ => rfl, fun _ => ⟨rfl, rfl⟩, ?_, ?_, ?_⟩
  · rcases dial with e | conn
    · simp [New]
    · rcases resp with e | (t | _)
      · simp [New, pollTracking]
      · simp [New, pollTracking, startChronyPoller]
      · simp [New, pollTracking]
  · rcases dial with e | conn
    · simp [New]
    · rcases resp with e | (t | _)
      · simp [New, pollTracking]
      · simp [New, pollTracking, startChronyPoller]
      · simp [New, pollTracking]
  · rcases dial with e | conn
    · simp [New]
    · rcases resp with e | (t | _)
      · simp [New, pollTracking]
      · simp [New, pollTracking, startChronyPoller]
      · simp [New, pollTracking]

/-! ## C10 -/

/-- C10: on a service holding a snapshot, `Now` returns and leaves the service
state, with the published snapshot and its root dispersion, as it was; a second
call with the same clock readings returns the same `Bounds`. -/
theorem Now_idempotent (c : TrueClock) (s : Tracking) (t₁ t₂ : Time)
    (hc : c.tracking = some s) :
    ∃ b c₁, Now c t₁ t₂ = some (b, c₁) ∧ c₁ = c ∧ c₁.tracking = some s ∧
      Now c₁ t₁ t₂ = some (b, c₁) :=
  ⟨_, c, Now_of_tracking c s t₁ t₂ hc, rfl, hc, Now_of_tracking c s t₁ t₂ hc⟩

/-- C10, applied to the example snapshot five seconds after `refTime`. -/
theorem Now_idempotent_witness :
    ∃ b c₁, Now (clockOf sExample) (T0 + 5000000000) (T0 + 5000000000) = some (b, c₁) ∧
      c₁ = clockOf sExample ∧ c₁.tracking = some sExample ∧
      Now c₁ (T0 + 5000000000) (T0 + 5000000000) = some (b, c₁) :=
  Now_idempotent (clockOf sExample) sExample (T0 + 5000000000) (T0 + 5000000000) rfl

end Trueclock
